import Mathlib

/-!
Shallow embedding of the quarry repository: a page-oriented content-addressed
block store (src/lib.rs) over an external append-only object heap (marble),
and the wiresaw chunker / DAG builder (wiresaw/src/lib.rs).

Modelling conventions:
- bytes are `List Nat`; machine integers are `Nat` with explicit `% 2^64`
  where the source wraps;
- the marble heap is an external collaborator (spec section 6); it is modelled
  as a linearizable object-id to value map with an atomic batch write, plus
  stub knobs for its statistics, a maintenance-call counter, and a batch
  failure switch, so that the trigger and atomicity claims are observable;
- bincode serialization of Index and Page values is external and injective;
  the heap therefore stores the typed values directly (a decode error in the
  source corresponds to finding a value of the wrong type);
- SHA-256 and the dag-cbor node encoder are external canonical libraries and
  are abstracted as function parameters;
- Rust panics (unwrap, assert) and propagated errors are an explicit error
  type in `Except`.
-/

namespace QuarrySpec

/-- Association-list finite map with replace-or-append insert, mirroring the
lookup, insert and remove operations of the BTreeMap and HashMap uses in the
source. -/
def alookup {κ α : Type} [DecidableEq κ] : List (κ × α) → κ → Option α
  | [], _ => none
  | (k, v) :: rest, key => if k = key then some v else alookup rest key

def ainsert {κ α : Type} [DecidableEq κ] : List (κ × α) → κ → α → List (κ × α)
  | [], key, v => [(key, v)]
  | (k, w) :: rest, key, v =>
      if k = key then (key, v) :: rest else (k, w) :: ainsert rest key v

def aremove {κ α : Type} [DecidableEq κ] : List (κ × α) → κ → List (κ × α)
  | [], _ => []
  | (k, w) :: rest, key =>
      if k = key then rest else (k, w) :: aremove rest key

/-- Byte strings ordered lexicographically, as Vec(u8) keys are ordered in the
BTreeMap of the Index. -/
def byteLe : List Nat → List Nat → Bool
  | [], _ => true
  | _ :: _, [] => false
  | a :: as, b :: bs => if a < b then true else if a = b then byteLe as bs else false

/-- Heap object ids (u64 handles of the marble heap). -/
abbrev ObjectId := Nat

/-- `INDEX_OBJECT_ID`: the reserved heap object id holding the Index. -/
def INDEX_OBJECT_ID : ObjectId := 1

/-- `Index` from src/lib.rs: page low-bound map plus the last allocated id. -/
structure Index where
  pages : List (List Nat × ObjectId)
  last_pid : Nat
deriving DecidableEq, Repr

/-- `Index::default`: empty page map, `last_pid = INDEX_OBJECT_ID + 1 = 2`. -/
def Index.default : Index := { pages := [], last_pid := INDEX_OBJECT_ID + 1 }

/-- `Page` from src/lib.rs. -/
structure Page where
  hi : Option (List Nat)
  lo : List Nat
  kvs : List (List Nat × List Nat)
deriving DecidableEq, Repr

/-- A typed heap value: the bincode payload of either an Index or a Page
(bincode is external and injective, so the typed value stands for its
serialized bytes; reading the wrong constructor models a decode error). -/
inductive HeapVal where
  | idx (i : Index)
  | pg (p : Page)
deriving DecidableEq, Repr

/-- Model of the external marble heap handle: the persisted object map plus
stub knobs (live and dead object statistics, a counter of maintenance
invocations, and a switch that makes the next batch write fail) so that the
compaction-trigger and atomicity claims are observable. -/
structure MHeap where
  objs : List (ObjectId × HeapVal)
  live : Nat
  dead : Nat
  maintCount : Nat
  failBatch : Bool
deriving DecidableEq, Repr

/-- Heap read: `Marble::read(object_id)` as an option. -/
def readObj (h : MHeap) (oid : ObjectId) : Option HeapVal := alookup h.objs oid

/-- Apply one batch entry: present value inserts or replaces, absent value
deletes. -/
def applyEntry (objs : List (ObjectId × HeapVal)) :
    ObjectId × Option HeapVal → List (ObjectId × HeapVal)
  | (oid, some v) => ainsert objs oid v
  | (oid, none) => aremove objs oid

/-- `Marble::write_batch`: atomic; either every entry applies or, when the
failure knob is set, none does and an error is returned. -/
def writeBatch (h : MHeap) (batch : List (ObjectId × Option HeapVal)) :
    Except Unit MHeap :=
  if h.failBatch then .error ()
  else .ok { h with objs := batch.foldl applyEntry h.objs }

/-- `Marble::stats`: the live and dead object counts (stub knobs). -/
def heapStats (h : MHeap) : Nat × Nat := (h.live, h.dead)

/-- `Marble::maintenance`: reclaims space; modelled as bumping the invocation
counter, which is what the trigger claim observes. -/
def heapMaintenance (h : MHeap) : Except Unit MHeap :=
  .ok { h with maintCount := h.maintCount + 1 }

/-- Errors of the Quarry operations: propagated heap I/O or batch failure,
a panic (unwrap or assert), or a bincode decode failure. -/
inductive QErr where
  | io
  | panic
  | decode
deriving DecidableEq, Repr

instance exceptDecEq {ε α : Type} [DecidableEq ε] [DecidableEq α] :
    DecidableEq (Except ε α) := fun a b =>
  match a, b with
  | .error e1, .error e2 =>
    if h : e1 = e2 then isTrue (by rw [h])
    else isFalse (by intro hc; cases hc; exact h rfl)
  | .error _, .ok _ => isFalse (by intro hc; cases hc)
  | .ok _, .error _ => isFalse (by intro hc; cases hc)
  | .ok a1, .ok a2 =>
    if h : a1 = a2 then isTrue (by rw [h])
    else isFalse (by intro hc; cases hc; exact h rfl)

/-- The open store handle: the heap plus the in-memory Index. -/
structure Quarry where
  heap : MHeap
  index : Index
deriving DecidableEq, Repr

/-- `Quarry::pid_for_key`: the entry of `index.pages` with the greatest
low bound that is at most `key` (`range(..=key).next_back()`); `none` models
the panicking unwrap when no page covers the key. -/
def pidForKey (pages : List (List Nat × ObjectId)) (key : List Nat) :
    Option ObjectId :=
  match pages.filter (fun e => byteLe e.1 key) with
  | [] => none
  | c :: cs =>
    some (cs.foldl (fun best e => if byteLe best.1 e.1 then e else best) c).2

/-- Multihash: self-describing digest, hash-function code plus digest bytes.
The digest computation itself (SHA-256) is an external library and is passed
as a function parameter where needed. -/
structure Multihash where
  code : Nat
  digest : List Nat
deriving DecidableEq, Repr

/-- `Code::Sha2_256.digest(data)` with the SHA-256 compression abstracted as
the parameter `H`: multihash code 0x12 wrapping the digest. -/
def sha256Digest (H : List Nat → List Nat) (data : List Nat) : Multihash :=
  { code := 0x12, digest := H data }

/-- Version-1 CID: codec tag plus multihash. -/
structure Cid where
  version : Nat
  codec : Nat
  mh : Multihash
deriving DecidableEq, Repr

/-- `Cid::new_v1(codec, mh)`. -/
def Cid.newV1 (codec : Nat) (mh : Multihash) : Cid :=
  { version := 1, codec := codec, mh := mh }

/-- `Cid::to_bytes`: the external cid library byte encoding, modelled as an
injective flat layout (version, codec, multihash code, digest length,
digest). -/
def Cid.toBytes (c : Cid) : List Nat :=
  c.version :: c.codec :: c.mh.code :: c.mh.digest.length :: c.mh.digest

/-- The CID the repository gives raw content: raw-bytes codec 0x55, SHA-256
multihash of the payload (`Cid::new_v1(0x55, Code::Sha2_256.digest(..))`). -/
def rawCid (H : List Nat → List Nat) (data : List Nat) : Cid :=
  Cid.newV1 0x55 (sha256Digest H data)

/-- `Quarry::mutate`: route the key, load and decode the owning page, insert
or remove the key, persist the page through a single-object batch, then read
the heap statistics and run maintenance when dead objects exceed live ones.
Returns the displaced previous value like BTreeMap insert and remove do. -/
def Quarry.mutate (q : Quarry) (key : List Nat) (value : Option (List Nat)) :
    Except QErr (Quarry × Option (List Nat)) :=
  match pidForKey q.index.pages key with
  | none => .error .panic
  | some object_id =>
    match readObj q.heap object_id with
    | none => .error .panic
    | some (.idx _) => .error .decode
    | some (.pg leaf) =>
      let ret := alookup leaf.kvs key
      let kvs2 := match value with
        | some v => ainsert leaf.kvs key v
        | none => aremove leaf.kvs key
      let leaf2 : Page := { leaf with kvs := kvs2 }
      match writeBatch q.heap [(object_id, some (.pg leaf2))] with
      | .error _ => .error .io
      | .ok h2 =>
        let stats := heapStats h2
        if stats.2 > stats.1 then
          match heapMaintenance h2 with
          | .error _ => .error .io
          | .ok h3 => .ok ({ q with heap := h3 }, ret)
        else .ok ({ q with heap := h2 }, ret)

/-- `Blockstore::get` for Quarry: route, load the page (a missing page object
is an unwrap panic), decode, look the key up. The handle is returned
unchanged, mirroring the read-only borrow. -/
def Quarry.get (q : Quarry) (k : Cid) : Except QErr (Quarry × Option (List Nat)) :=
  let kd := k.toBytes
  match pidForKey q.index.pages kd with
  | none => .error .panic
  | some object_id =>
    match readObj q.heap object_id with
    | none => .error .panic
    | some (.idx _) => .error .decode
    | some (.pg page) => .ok (q, alookup page.kvs kd)

/-- `Blockstore::put_keyed` for Quarry. -/
def Quarry.putKeyed (q : Quarry) (k : Cid) (block : List Nat) :
    Except QErr Quarry :=
  match q.mutate k.toBytes (some block) with
  | .error e => .error e
  | .ok (q2, _) => .ok q2

/-- `Blockstore::delete_block` for Quarry. -/
def Quarry.deleteBlock (q : Quarry) (k : Cid) : Except QErr Quarry :=
  match q.mutate k.toBytes none with
  | .error e => .error e
  | .ok (q2, _) => .ok q2

/-- `Quarry::allocate_page`: bump `last_pid`, take the bumped value as the
new object id, register the page low bound (the assert that no page with the
same low bound existed panics otherwise), and commit page plus refreshed
Index in one atomic batch. -/
def Quarry.allocatePage (q : Quarry) (page : Page) : Except QErr Quarry :=
  let last_pid2 := q.index.last_pid + 1
  let object_id := last_pid2
  let previous := alookup q.index.pages page.lo
  if previous.isSome then .error .panic
  else
    let index2 : Index :=
      { pages := ainsert q.index.pages page.lo object_id, last_pid := last_pid2 }
    match writeBatch q.heap
        [(object_id, some (.pg page)), (INDEX_OBJECT_ID, some (.idx index2))] with
    | .error _ => .error .io
    | .ok h2 => .ok { heap := h2, index := index2 }

/-- The bootstrap page of `Quarry::open`: no high bound, empty low bound,
empty map. -/
def initPage : Page := { hi := none, lo := [], kvs := [] }

/-- `Quarry::open` from an already-opened heap handle: load and decode the
Index at the reserved id, defaulting when absent, then bootstrap the first
page when the page map is empty. -/
def Quarry.openQ (h : MHeap) : Except QErr Quarry :=
  match readObj h INDEX_OBJECT_ID with
  | some (.pg _) => .error .decode
  | some (.idx i) =>
    let q : Quarry := { heap := h, index := i }
    if q.index.pages.isEmpty then q.allocatePage initPage else .ok q
  | none =>
    let q : Quarry := { heap := h, index := Index.default }
    if q.index.pages.isEmpty then q.allocatePage initPage else .ok q

/-! wiresaw/src/lib.rs: chunker and DAG builder. -/

/-- `DAG_CBOR` codec tag. -/
def DAG_CBOR : Nat := 0x71

/-- `DEFAULT_CHUNK_SIZE` = 1 << 18 = 256 KiB. -/
def DEFAULT_CHUNK_SIZE : Nat := 2 ^ 18

/-- `u64::MAX + 1`; `rem_size` arithmetic wraps at this modulus. -/
def U64MOD : Nat := 2 ^ 64

/-- Wrapping u64 subtraction, the semantics of `rem_size -= n` on the
unsigned counter. -/
def sub64 (a b : Nat) : Nat := (a + (U64MOD - b % U64MOD)) % U64MOD

/-- A `Read` source: from a source state and a buffer length, the advanced
source state and either the bytes placed in the buffer (`Ok(n)`, the returned
list holding the n filled bytes) or `none` for an I/O error. -/
structure Reader (σ : Type) where
  read : σ → Nat → σ × Option (List Nat)

/-- `ChunkReader` fields: the inner source, declared content size, chunk
size, and the remaining-size counter (a u64, kept below 2^64). -/
structure ChunkReader (σ : Type) where
  inner : σ
  content_size : Nat
  chunk_size : Nat
  rem_size : Nat
deriving DecidableEq, Repr

/-- `ChunkReader::with_chunk_size`: content and remaining size start at 0. -/
def ChunkReader.withChunkSize {σ : Type} (size : Nat) (inner : σ) :
    ChunkReader σ :=
  { inner := inner, chunk_size := size, content_size := 0, rem_size := 0 }

/-- `ChunkReader::new`: the default chunk size. -/
def ChunkReader.mkNew {σ : Type} (inner : σ) : ChunkReader σ :=
  ChunkReader.withChunkSize DEFAULT_CHUNK_SIZE inner

/-- `ChunkReader::set_content_size`: sets both the declared content size and
the remaining-size counter. -/
def ChunkReader.setContentSize {σ : Type} (c : ChunkReader σ) (size : Nat) :
    ChunkReader σ :=
  { c with content_size := size, rem_size := size }

/-- `Iterator::next` for ChunkReader: allocate a chunk_size buffer, read into
it; an I/O error yields `none` with no other bookkeeping; a zero-byte read
yields `none` and clears `rem_size`; otherwise the buffer is truncated to the
bytes read, `rem_size` is decremented with wrapping u64 arithmetic, and the
chunk is returned. -/
def ChunkReader.next {σ : Type} (R : Reader σ) (c : ChunkReader σ) :
    Option (List Nat) × ChunkReader σ :=
  match R.read c.inner c.chunk_size with
  | (s2, none) => (none, { c with inner := s2 })
  | (s2, some bs) =>
    if bs.length = 0 then (none, { c with inner := s2, rem_size := 0 })
    else (some bs,
      { c with inner := s2, rem_size := sub64 c.rem_size bs.length })

/-- `Iterator::size_hint` for ChunkReader: `(0, Some 0)` when the counter is
zero, else the counter divided by the chunk size, as both bounds. -/
def ChunkReader.sizeHint {σ : Type} (c : ChunkReader σ) : Nat × Option Nat :=
  if c.rem_size = 0 then (0, some 0)
  else (c.rem_size / c.chunk_size, some (c.rem_size / c.chunk_size))

/-- The in-memory slice source of the repository tests: a read fills the
buffer with as many leading bytes as are available and never fails. -/
def listReader : Reader (List Nat) :=
  { read := fun l n => (l.drop n, some (l.take n)) }

/-- Drive the ChunkReader iterator over the slice source, collecting the
yielded chunks in order; the fuel bounds the number of iterations (each
yielded chunk consumes at least one source byte, so any fuel above the
source length reaches exhaustion). -/
def runListF : Nat → ChunkReader (List Nat) → List (List Nat)
  | 0, _ => []
  | fuel + 1, c =>
    match ChunkReader.next listReader c with
    | (none, _) => []
    | (some ch, c2) => ch :: runListF fuel c2

/-- Drive the ChunkReader iterator over the slice source to exhaustion. -/
def runList (c : ChunkReader (List Nat)) : List (List Nat) :=
  runListF (c.inner.length + 1) c
/-- A source that fails with an I/O error on its first read and afterwards
yields the single byte 7 on every read. -/
def flakyReader : Reader Nat :=
  { read := fun s _ => if s = 0 then (1, none) else (s + 1, some [7]) }

/-- A ChunkReader over the flaky source, chunk size 1, declared content
size 5. -/
def flakyStart : ChunkReader Nat :=
  { inner := 0, content_size := 5, chunk_size := 1, rem_size := 5 }

/-- The first byte read from a one-byte source on a ChunkReader whose
content size was never set (so the counter is 0) wraps the counter to
2^64 - 1. -/
def underflowStart : ChunkReader (List Nat) := ChunkReader.withChunkSize 1 [5]

/-- `Link` from wiresaw: a CID reference with optional display name and
declared size; the name field is text, the size an unsigned integer. -/
structure Link where
  cid : Cid
  name : Option String
  size : Option Nat
deriving DecidableEq, Repr

/-- `Link::from(cid)`: no name, no size. -/
def Link.fromCid (c : Cid) : Link := { cid := c, name := none, size := none }

structure Node where
  data : Option (List Nat)
  links : List Link
deriving DecidableEq, Repr

/-- `DagInfo`: root CID, leaf count, encoded root byte length. -/
structure DagInfo where
  root : Cid
  leaves : Nat
  root_size : Nat
deriving DecidableEq, Repr

/-- A `Storer` over store states σ: `put_keyed` threads the state and may
fail. -/
structure Storer (σ : Type) where
  putKeyed : σ → Cid → List Nat → Except Unit σ

/-- The while-loop of `DagBuilder::trickle`: for each chunk in order, compute
its raw CID, store the block keyed by it, append a bare link to the root
accumulator; a store failure aborts immediately. -/
def trickleLoop {σ : Type} (H : List Nat → List Nat) (S : Storer σ) :
    List (List Nat) → σ → List Link → Except Unit (σ × List Link)
  | [], s, links => .ok (s, links)
  | data :: rest, s, links =>
    let cid := Cid.newV1 0x55 (sha256Digest H data)
    match S.putKeyed s cid data with
    | .error e => .error e
    | .ok s2 => trickleLoop H S rest s2 (links ++ [Link.fromCid cid])

/-- `DagBuilder::trickle`: drain the chunks into leaf blocks and links,
serialize the root node with the dag-cbor encoder `E` (external library,
abstracted as a parameter), store the encoded root keyed by its descriptor
CID, and return the DagInfo. -/
def trickle {σ : Type} (H : List Nat → List Nat) (E : Node → List Nat)
    (S : Storer σ) (chunks : List (List Nat)) (s : σ) :
    Except Unit (σ × DagInfo) :=
  match trickleLoop H S chunks s [] with
  | .error e => .error e
  | .ok (s2, links) =>
    let node : Node := { data := none, links := links }
    let enc := E node
    let root := Cid.newV1 DAG_CBOR (sha256Digest H enc)
    match S.putKeyed s2 root enc with
    | .error e => .error e
    | .ok s3 =>
      .ok (s3, { root := root, leaves := links.length, root_size := enc.length })

/-- A recording store: the state lists every stored (cid, block) pair in
call order; puts never fail. Mirrors the MemoryBlockstore test double. -/
def recStore : Storer (List (Cid × List Nat)) :=
  { putKeyed := fun s k b => .ok (s ++ [(k, b)]) }

/-- The root node trickle accumulates over a chunk sequence: no inline data,
one bare link per chunk carrying the raw-codec CID of that chunk, in chunk
order. -/
def rootNode (H : List Nat → List Nat) (chunks : List (List Nat)) : Node :=
  { data := none, links := chunks.map (fun d => Link.fromCid (rawCid H d)) }

/-- The CID trickle gives the encoded root: DAG-descriptor codec 0x71 over
the SHA-256 multihash of the encoded bytes. -/
def rootCidOf (H : List Nat → List Nat) (E : Node → List Nat)
    (chunks : List (List Nat)) : Cid :=
  Cid.newV1 DAG_CBOR (sha256Digest H (E (rootNode H chunks)))

/-- The page produced by a mutate step: insert for a put, remove for a
delete. -/
def pgUpd (pgv : Page) (key : List Nat) (v : Option (List Nat)) : Page :=
  { pgv with kvs := match v with
      | some b => ainsert pgv.kvs key b
      | none => aremove pgv.kvs key }

/-- The heap a successful mutate leaves behind: the routed object replaced
through the single-entry batch, then maintenance when dead objects exceed
live ones. -/
def afterWrite (h : MHeap) (oid : ObjectId) (val : HeapVal) : MHeap :=
  let h2 : MHeap := { h with objs := ainsert h.objs oid val }
  if h2.dead > h2.live then { h2 with maintCount := h2.maintCount + 1 } else h2

/-- The object an Index entry references is present, decodes as a page, and
its key list has no duplicates (BTreeMap keys are unique). -/
def pageOk (h : MHeap) (oid : ObjectId) : Bool :=
  match readObj h oid with
  | some (.pg pgv) => decide (pgv.kvs.map Prod.fst).Nodup
  | _ => false

/-- A well-formed open store: the batch failure knob is off, some page has
the empty low bound (so every key routes to a page), and every page the
Index references satisfies pageOk. -/
def wfQ (q : Quarry) : Bool :=
  !q.heap.failBatch &&
    q.index.pages.any (fun e => decide (e.1 = [])) &&
    q.index.pages.all (fun e => pageOk q.heap e.2)

/-- A heap holding no objects, with clean knobs. -/
def emptyHeap : MHeap :=
  { objs := [], live := 0, dead := 0, maintCount := 0, failBatch := false }

/-- The store produced by opening the empty heap (bootstrap). -/
def bootQuarry : Quarry :=
  { heap := { objs := [(3, .pg initPage),
                       (1, .idx { pages := [([], 3)], last_pid := 3 })],
              live := 0, dead := 0, maintCount := 0, failBatch := false },
    index := { pages := [([], 3)], last_pid := 3 } }

/-- A store whose Index routes every key to object id 3 while the heap holds
no object at all: the missing-page integrity condition. -/
def badQuarry : Quarry :=
  { heap := emptyHeap, index := { pages := [([], 3)], last_pid := 3 } }

/-- A concrete CID (identity stand-in for the hash, over the byte 1). -/
def someCid : Cid := rawCid (fun l => l) [1]

/-- bootQuarry with the stub statistics reporting more dead than live
objects, so the next successful write must trigger maintenance. -/
def dirtyQuarry : Quarry :=
  { bootQuarry with heap := { bootQuarry.heap with live := 1, dead := 5 } }

/-- The store dirtyQuarry leaves after a successful put of the byte 9. -/
def dirtyPutQ : Quarry :=
  match dirtyQuarry.putKeyed someCid [9] with
  | .ok q2 => q2
  | .error _ => dirtyQuarry

/-- The store bootQuarry (dead = live = 0) leaves after a delete. -/
def bootDelQ : Quarry :=
  match bootQuarry.deleteBlock someCid with
  | .ok q2 => q2
  | .error _ => bootQuarry


theorem alookup_ainsert_self {κ α : Type} [DecidableEq κ]
    (m : List (κ × α)) (k : κ) (v : α) : alookup (ainsert m k v) k = some v := by
  induction m with
  | nil => simp [ainsert, alookup]
  | cons hd tl ih =>
    obtain ⟨k0, v0⟩ := hd
    by_cases h : k0 = k <;> simp [ainsert, alookup, h, ih]

theorem alookup_ainsert_ne {κ α : Type} [DecidableEq κ]
    (m : List (κ × α)) (k k2 : κ) (v : α) (h : k ≠ k2) :
    alookup (ainsert m k v) k2 = alookup m k2 := by
  induction m with
  | nil => simp [ainsert, alookup, h]
  | cons hd tl ih =>
    obtain ⟨k0, v0⟩ := hd
    by_cases h0 : k0 = k
    · subst h0
      simp [ainsert, alookup, h]
    · simp [ainsert, alookup, h0, ih]

theorem alookup_eq_none_of_not_mem {κ α : Type} [DecidableEq κ]
    (m : List (κ × α)) (k : κ) (h : k ∉ m.map Prod.fst) : alookup m k = none := by
  induction m with
  | nil => rfl
  | cons hd tl ih =>
    obtain ⟨k0, v0⟩ := hd
    simp only [List.map_cons, List.mem_cons] at h
    push_neg at h
    have hne : ¬k0 = k := fun he => h.1 he.symm
    simp [alookup, hne, ih h.2]

theorem alookup_aremove_self {κ α : Type} [DecidableEq κ]
    (m : List (κ × α)) (k : κ)
    (hm : (m.map Prod.fst).Nodup) : alookup (aremove m k) k = none := by
  induction m with
  | nil => simp [aremove, alookup]
  | cons hd tl ih =>
    obtain ⟨k0, v0⟩ := hd
    simp only [List.map_cons, List.nodup_cons] at hm
    by_cases h : k0 = k
    · subst h
      simp only [aremove, if_pos rfl]
      exact alookup_eq_none_of_not_mem tl k0 hm.1
    · simp [aremove, alookup, h, ih hm.2]


theorem byteLe_nil (l : List Nat) : byteLe [] l = true := rfl


theorem next_listReader (c : ChunkReader (List Nat)) :
    ChunkReader.next listReader c =
      if (c.inner.take c.chunk_size).length = 0 then
        (none, { c with inner := c.inner.drop c.chunk_size, rem_size := 0 })
      else (some (c.inner.take c.chunk_size),
        { c with inner := c.inner.drop c.chunk_size,
                 rem_size := sub64 c.rem_size (c.inner.take c.chunk_size).length }) := by
  by_cases hz : (c.inner.take c.chunk_size).length = 0 <;>
    simp [ChunkReader.next, listReader, hz]

theorem runListF_spec : ∀ (fuel : Nat) (c : ChunkReader (List Nat)),
    c.inner.length < fuel → 0 < c.chunk_size →
    ((runListF fuel c).join = c.inner ∧
     (runListF fuel c).length =
       (c.inner.length + c.chunk_size - 1) / c.chunk_size ∧
     (∀ ch ∈ (runListF fuel c).dropLast, ch.length = c.chunk_size) ∧
     (∀ ch, (runListF fuel c).getLast? = some ch →
        ch.length = if c.inner.length % c.chunk_size = 0 then c.chunk_size
          else c.inner.length % c.chunk_size)) := by
  intro fuel
  induction fuel with
  | zero => intro c h; omega
  | succ fuel ih =>
    intro c hlen hcs
    set S := c.chunk_size with hS
    set l := c.inner with hl
    by_cases hnil : l.length = 0
    · have hl0 : l = [] := List.length_eq_zero.mp hnil
      have hrun : runListF (fuel + 1) c = [] := by
        simp [runListF, next_listReader, ← hl, hl0]
      rw [hrun]
      refine ⟨by rw [hl0]; rfl, ?_, by simp, by simp⟩
      rw [hnil]
      show (0 : Nat) = (0 + S - 1) / S
      rw [(Nat.div_eq_of_lt (by omega) : (0 + S - 1) / S = 0)]
    · have htk : (l.take S).length = min S l.length := by simp
      have htkne : (l.take S).length ≠ 0 := by
        rw [htk]; omega
      have hrun : runListF (fuel + 1) c =
          l.take S :: runListF fuel
            { c with inner := l.drop S, rem_size := sub64 c.rem_size (l.take S).length } := by
        simp only [runListF, next_listReader, ← hl, ← hS]
        rw [if_neg htkne]
      set c2 : ChunkReader (List Nat) :=
        { c with inner := l.drop S, rem_size := sub64 c.rem_size (l.take S).length } with hc2
      have hc2len : c2.inner.length = l.length - S := by simp [hc2]
      have hc2cs : c2.chunk_size = S := rfl
      have hfuel2 : c2.inner.length < fuel := by
        rw [hc2len]; omega
      obtain ⟨ihj, ihl, ihd, ihg⟩ := ih c2 hfuel2 (by rw [hc2cs]; omega)
      by_cases hle : l.length ≤ S
      · have hdrop : l.drop S = [] := List.drop_eq_nil_of_le hle
        have htake : l.take S = l := List.take_of_length_le hle
        have hrest : runListF fuel c2 = [] := by
          have : (runListF fuel c2).length = 0 := by
            rw [ihl, hc2len, hc2cs]
            have : l.length - S = 0 := by omega
            rw [this]
            exact Nat.div_eq_of_lt (by omega)
          exact List.length_eq_zero.mp this
        rw [hrun, hrest, htake]
        refine ⟨by simp, ?_, by simp, ?_⟩
        · show 1 = (l.length + S - 1) / S
          symm
          apply Nat.div_eq_of_lt_le <;> omega
        · intro ch hch
          simp only [List.getLast?_singleton, Option.some.injEq] at hch
          subst hch
          by_cases heq : l.length = S
          · simp [heq, Nat.mod_self]
          · have hlt : l.length < S := by omega
            rw [Nat.mod_eq_of_lt hlt, if_neg (by omega)]
      · have hSlt : S < l.length := by omega
        have htake : (l.take S).length = S := by rw [htk]; omega
        have hrestne : runListF fuel c2 ≠ [] := by
          intro hn
          have : (runListF fuel c2).length = 0 := by rw [hn]; rfl
          rw [ihl, hc2len, hc2cs] at this
          have h1 : 1 ≤ (l.length - S + S - 1) / S := by
            rw [Nat.le_div_iff_mul_le (by omega)]
            omega
          omega
        obtain ⟨r, t, hrt⟩ := List.exists_cons_of_ne_nil hrestne
        rw [hrun]
        refine ⟨?_, ?_, ?_, ?_⟩
        · show l.take S ++ (runListF fuel c2).join = l
          rw [ihj]
          show l.take S ++ c2.inner = l
          simp [hc2]
        · simp only [List.length_cons, ihl, hc2len, hc2cs]
          have hnum : l.length + S - 1 = (l.length - S + S - 1) + S := by omega
          rw [hnum, Nat.add_div_right _ (by omega)]
        · intro ch hch
          rw [hrt, List.dropLast_cons₂] at hch
          rcases List.mem_cons.mp hch with h1 | h2
          · rw [h1, htake]
          · exact ihd ch (by rw [hrt]; exact h2)
        · intro ch hch
          rw [hrt, List.getLast?_cons_cons] at hch
          have := ihg ch (by rw [hrt]; exact hch)
          rw [hc2len, hc2cs] at this
          have hmod : (l.length - S) % S = l.length % S := by
            conv_rhs => rw [show l.length = (l.length - S) + S by omega]
            rw [Nat.add_mod_right]
          rwa [hmod] at this

/-- C2: reading an N-byte source with chunk size S, the declared content
size set to N, yields exactly ceil(N/S) chunks whose concatenation in order
is the source; 0 chunks when N = 0; every chunk but the last has length S;
the last chunk has length N mod S, or S when S divides N. The chunk size is
positive (with chunk size 0 every read fills zero bytes and the iterator
ends at once, so no chunking takes place). -/
theorem chunker_completeness (l : List Nat) (S N : Nat) (hS : 0 < S)
    (hN : N = l.length) :
    (runList ((ChunkReader.withChunkSize S l).setContentSize N)).join = l ∧
    (runList ((ChunkReader.withChunkSize S l).setContentSize N)).length =
      (N + S - 1) / S ∧
    (N = 0 → runList ((ChunkReader.withChunkSize S l).setContentSize N) = []) ∧
    (∀ ch ∈ (runList ((ChunkReader.withChunkSize S l).setContentSize N)).dropLast,
       ch.length = S) ∧
    (∀ ch,
       (runList ((ChunkReader.withChunkSize S l).setContentSize N)).getLast? =
         some ch →
       ch.length = if N % S = 0 then S else N % S) := by
  subst hN
  obtain ⟨h1, h2, h3, h4⟩ :=
    runListF_spec (l.length + 1)
      ((ChunkReader.withChunkSize S l).setContentSize l.length)
      (by show l.length < l.length + 1; omega)
      (by show 0 < S; exact hS)
  have g1 : (runList ((ChunkReader.withChunkSize S l).setContentSize l.length)).join = l := h1
  have g2 : (runList ((ChunkReader.withChunkSize S l).setContentSize l.length)).length =
      (l.length + S - 1) / S := h2
  have g4 : ∀ ch ∈ (runList ((ChunkReader.withChunkSize S l).setContentSize l.length)).dropLast,
      ch.length = S := h3
  have g5 : ∀ ch,
      (runList ((ChunkReader.withChunkSize S l).setContentSize l.length)).getLast? = some ch →
      ch.length = if l.length % S = 0 then S else l.length % S := h4
  refine ⟨g1, g2, fun h0 => List.length_eq_zero.mp ?_, g4, g5⟩
  rw [g2, h0]
  exact Nat.div_eq_of_lt (by omega)

/-- C9 counterexample: against a source that errors once and then recovers,
next swallows the error and returns none, but the following next call still
yields a chunk, and the error path leaves rem_size untouched where a
zero-byte read would have cleared it; so an I/O error does not terminate the
sequence permanently, nor exactly as a zero-byte read does. -/
theorem chunker_error_counterexample :
    (ChunkReader.next flakyReader flakyStart).1 = none ∧
    (ChunkReader.next flakyReader
       (ChunkReader.next flakyReader flakyStart).2).1 = some [7] ∧
    ((ChunkReader.next flakyReader flakyStart).2).rem_size = 5 := by decide

/-- C9 (amended): when the source read returns an I/O error, next returns
none for that call with no error value surfaced (the item type has no error
constructor) and with rem_size left untouched, unlike a zero-byte read which
clears it; the iterator is not fused, so a later successful read can yield
further chunks. -/
theorem chunker_error_swallowed {σ : Type} (R : Reader σ) (c : ChunkReader σ)
    (s2 : σ) (h : R.read c.inner c.chunk_size = (s2, none)) :
    ChunkReader.next R c = (none, { c with inner := s2 }) := by
  simp [ChunkReader.next, h]

theorem chunker_error_swallowed_witness :
    flakyReader.read flakyStart.inner flakyStart.chunk_size = (1, none) ∧
    ChunkReader.next flakyReader flakyStart =
      (none, { flakyStart with inner := 1 }) :=
  ⟨by decide, chunker_error_swallowed flakyReader flakyStart 1 (by decide)⟩

/-- C10: when the remaining-size counter is smaller than the bytes a
successful non-empty read returns (as happens whenever the declared content
size understates the source, including the default 0), next still yields the
chunk and the subtraction wraps modulo 2^64, leaving a counter of at least
2^64 minus the chunk size; size_hint then reports that huge value divided by
the chunk size, which is positive rather than 0. -/
theorem rem_size_underflow {σ : Type} (R : Reader σ) (c : ChunkReader σ)
    (s2 : σ) (bs : List Nat)
    (hread : R.read c.inner c.chunk_size = (s2, some bs))
    (hne : bs.length ≠ 0)
    (hlt : c.rem_size < bs.length)
    (hbs : bs.length ≤ c.chunk_size)
    (hcs : 2 * c.chunk_size ≤ U64MOD) :
    (ChunkReader.next R c).1 = some bs ∧
    ((ChunkReader.next R c).2).rem_size = c.rem_size + U64MOD - bs.length ∧
    U64MOD - c.chunk_size ≤ ((ChunkReader.next R c).2).rem_size ∧
    0 < (((ChunkReader.next R c).2).sizeHint).1 ∧
    (((ChunkReader.next R c).2).sizeHint).1 =
      (c.rem_size + U64MOD - bs.length) / c.chunk_size := by
  have hnext : ChunkReader.next R c =
      (some bs, { c with inner := s2, rem_size := sub64 c.rem_size bs.length }) := by
    simp [ChunkReader.next, hread, hne]
  have hmod : bs.length % U64MOD = bs.length :=
    Nat.mod_eq_of_lt (by omega)
  have hval : sub64 c.rem_size bs.length = c.rem_size + U64MOD - bs.length := by
    unfold sub64
    rw [hmod]
    rw [Nat.mod_eq_of_lt (by omega)]
    omega
  have hge : U64MOD - c.chunk_size ≤ c.rem_size + U64MOD - bs.length := by omega
  have hzero : c.rem_size + U64MOD - bs.length ≠ 0 := by
    have : (0 : Nat) < U64MOD := by norm_num [U64MOD]
    omega
  have hpos : 0 < (c.rem_size + U64MOD - bs.length) / c.chunk_size :=
    Nat.div_pos (by omega) (by omega)
  rw [hnext]
  refine ⟨rfl, ?_, ?_, ?_, ?_⟩
  · exact hval
  · show U64MOD - c.chunk_size ≤ sub64 c.rem_size bs.length
    rw [hval]; exact hge
  · show 0 < (ChunkReader.sizeHint _).1
    simp only [ChunkReader.sizeHint, hval]
    rw [if_neg hzero]
    exact hpos
  · simp only [ChunkReader.sizeHint, hval]
    rw [if_neg hzero]

theorem rem_size_underflow_witness :
    listReader.read underflowStart.inner underflowStart.chunk_size =
      ([], some [5]) ∧
    ((ChunkReader.next listReader underflowStart).1 = some [5] ∧
     ((ChunkReader.next listReader underflowStart).2).rem_size =
       underflowStart.rem_size + U64MOD - 1 ∧
     U64MOD - underflowStart.chunk_size ≤
       ((ChunkReader.next listReader underflowStart).2).rem_size ∧
     0 < (((ChunkReader.next listReader underflowStart).2).sizeHint).1 ∧
     (((ChunkReader.next listReader underflowStart).2).sizeHint).1 =
       (underflowStart.rem_size + U64MOD - 1) / underflowStart.chunk_size) :=
  ⟨by decide,
   rem_size_underflow listReader underflowStart [] [5] (by decide) (by decide)
     (by decide) (by decide) (by norm_num [U64MOD, underflowStart, ChunkReader.withChunkSize])⟩

theorem mem_fst_ainsert {κ α : Type} [DecidableEq κ]
    (m : List (κ × α)) (k k2 : κ) (v : α)
    (h : k2 ∈ (ainsert m k v).map Prod.fst) :
    k2 ∈ m.map Prod.fst ∨ k2 = k := by
  induction m with
  | nil =>
    right
    have he : (ainsert ([] : List (κ × α)) k v).map Prod.fst = [k] := rfl
    rw [he] at h
    exact List.mem_singleton.mp h
  | cons hd tl ih =>
    obtain ⟨k0, v0⟩ := hd
    by_cases h0 : k0 = k
    · subst h0
      rw [show ainsert ((k0, v0) :: tl) k0 v = (k0, v) :: tl by simp [ainsert],
        List.map_cons] at h
      rcases List.mem_cons.mp h with h2 | h2
      · right; exact h2
      · left
        rw [List.map_cons]
        exact List.mem_cons_of_mem _ h2
    · rw [show ainsert ((k0, v0) :: tl) k v = (k0, v0) :: ainsert tl k v by
        simp [ainsert, h0], List.map_cons] at h
      rcases List.mem_cons.mp h with h2 | h2
      · left
        rw [List.map_cons, h2]
        exact List.mem_cons_self _ _
      · rcases ih h2 with h3 | h3
        · left
          rw [List.map_cons]
          exact List.mem_cons_of_mem _ h3
        · right; exact h3

theorem nodup_ainsert {κ α : Type} [DecidableEq κ]
    (m : List (κ × α)) (k : κ) (v : α)
    (hm : (m.map Prod.fst).Nodup) : ((ainsert m k v).map Prod.fst).Nodup := by
  induction m with
  | nil => simp [ainsert]
  | cons hd tl ih =>
    obtain ⟨k0, v0⟩ := hd
    simp only [List.map_cons, List.nodup_cons] at hm
    by_cases h0 : k0 = k
    · subst h0
      rw [show ainsert ((k0, v0) :: tl) k0 v = (k0, v) :: tl by simp [ainsert],
        List.map_cons, List.nodup_cons]
      exact hm
    · rw [show ainsert ((k0, v0) :: tl) k v = (k0, v0) :: ainsert tl k v by
        simp [ainsert, h0], List.map_cons, List.nodup_cons]
      refine ⟨?_, ih hm.2⟩
      intro hmem
      rcases mem_fst_ainsert tl k k0 v hmem with h | h
      · exact hm.1 h
      · exact h0 h

theorem aremove_sublist {κ α : Type} [DecidableEq κ]
    (m : List (κ × α)) (k : κ) : (aremove m k).Sublist m := by
  induction m with
  | nil => simp [aremove]
  | cons hd tl ih =>
    obtain ⟨k0, v0⟩ := hd
    by_cases h0 : k0 = k
    · simp only [aremove, if_pos h0]
      exact List.sublist_cons_self _ _
    · simp only [aremove, if_neg h0]
      exact ih.cons₂ _

theorem nodup_aremove {κ α : Type} [DecidableEq κ]
    (m : List (κ × α)) (k : κ)
    (hm : (m.map Prod.fst).Nodup) : ((aremove m k).map Prod.fst).Nodup :=
  ((aremove_sublist m k).map Prod.fst).nodup hm

theorem foldl_best_mem :
    ∀ (cs : List (List Nat × ObjectId)) (c : List Nat × ObjectId),
      cs.foldl (fun best e => if byteLe best.1 e.1 then e else best) c = c ∨
      cs.foldl (fun best e => if byteLe best.1 e.1 then e else best) c ∈ cs := by
  intro cs
  induction cs with
  | nil => intro c; left; rfl
  | cons e rest ih =>
    intro c
    simp only [List.foldl_cons]
    rcases ih (if byteLe c.1 e.1 then e else c) with h | h
    · rw [h]
      by_cases hb : byteLe c.1 e.1 = true
      · right; rw [if_pos hb]; exact List.mem_cons_self e rest
      · left; rw [if_neg hb]
    · right; exact List.mem_cons_of_mem e h

theorem wf_failBatch (q : Quarry) (hwf : wfQ q = true) :
    q.heap.failBatch = false := by
  unfold wfQ at hwf
  rw [Bool.and_eq_true, Bool.and_eq_true] at hwf
  simpa using hwf.1.1

theorem wf_route (q : Quarry) (key : List Nat) (hwf : wfQ q = true) :
    ∃ oid pgv, pidForKey q.index.pages key = some oid ∧
      readObj q.heap oid = some (.pg pgv) ∧ (pgv.kvs.map Prod.fst).Nodup := by
  unfold wfQ at hwf
  rw [Bool.and_eq_true, Bool.and_eq_true] at hwf
  obtain ⟨⟨hfb, hany⟩, hall⟩ := hwf
  rw [List.any_eq_true] at hany
  obtain ⟨e0, he0mem, he0⟩ := hany
  have he0nil : e0.1 = [] := by simpa using he0
  have hfe : e0 ∈ q.index.pages.filter (fun e => byteLe e.1 key) := by
    rw [List.mem_filter]
    exact ⟨he0mem, by rw [he0nil]; rfl⟩
  cases hf : q.index.pages.filter (fun e => byteLe e.1 key) with
  | nil => rw [hf] at hfe; cases hfe
  | cons c cs =>
    set chosen := cs.foldl (fun best e => if byteLe best.1 e.1 then e else best) c
      with hchosen
    have hpid : pidForKey q.index.pages key = some chosen.2 := by
      unfold pidForKey
      rw [hf]
    have hmem : chosen ∈ q.index.pages := by
      have hin : chosen ∈ c :: cs := by
        rcases foldl_best_mem cs c with h | h
        · rw [hchosen, h]; exact List.mem_cons_self _ _
        · exact List.mem_cons_of_mem c (hchosen ▸ h)
      rw [← hf] at hin
      exact List.mem_of_mem_filter hin
    have hok : pageOk q.heap chosen.2 = true :=
      List.all_eq_true.mp hall chosen hmem
    unfold pageOk at hok
    cases hro : readObj q.heap chosen.2 with
    | none => rw [hro] at hok; cases hok
    | some hv =>
      cases hv with
      | idx i => rw [hro] at hok; cases hok
      | pg pgv =>
        rw [hro] at hok
        exact ⟨chosen.2, pgv, hpid, hro, of_decide_eq_true hok⟩

theorem afterWrite_objs (h : MHeap) (oid : ObjectId) (val : HeapVal) :
    (afterWrite h oid val).objs = ainsert h.objs oid val := by
  by_cases hc : h.dead > h.live <;> simp [afterWrite, hc]

theorem afterWrite_failBatch (h : MHeap) (oid : ObjectId) (val : HeapVal) :
    (afterWrite h oid val).failBatch = h.failBatch := by
  by_cases hc : h.dead > h.live <;> simp [afterWrite, hc]

theorem afterWrite_maintCount (h : MHeap) (oid : ObjectId) (val : HeapVal) :
    (afterWrite h oid val).maintCount =
      if h.dead > h.live then h.maintCount + 1 else h.maintCount := by
  by_cases hc : h.dead > h.live <;> simp [afterWrite, hc]

theorem mutate_ok_char (q : Quarry) (key : List Nat) (v : Option (List Nat))
    (oid : ObjectId) (pgv : Page)
    (h1 : pidForKey q.index.pages key = some oid)
    (h2 : readObj q.heap oid = some (.pg pgv))
    (h3 : q.heap.failBatch = false) :
    q.mutate key v =
      .ok ({ heap := afterWrite q.heap oid (.pg (pgUpd pgv key v)),
             index := q.index }, alookup pgv.kvs key) := by
  by_cases hc : q.heap.dead > q.heap.live <;>
    cases v <;>
      simp [Quarry.mutate, h1, h2, writeBatch, h3, applyEntry, heapStats,
        heapMaintenance, afterWrite, pgUpd, hc]

/-- C1: on a well-formed open store, putting a block keyed by its own
content CID then getting that CID returns the block; deleting the CID and
getting again returns none. -/
theorem quarry_roundtrip (H : List Nat → List Nat) (q : Quarry) (B : List Nat)
    (hwf : wfQ q = true) :
    ∃ q1 q2,
      q.putKeyed (rawCid H B) B = .ok q1 ∧
      q1.get (rawCid H B) = .ok (q1, some B) ∧
      q1.deleteBlock (rawCid H B) = .ok q2 ∧
      q2.get (rawCid H B) = .ok (q2, none) := by
  obtain ⟨oid, pgv, hroute, hread, hnodup⟩ :=
    wf_route q (rawCid H B).toBytes hwf
  have hfb : q.heap.failBatch = false := wf_failBatch q hwf
  set key := (rawCid H B).toBytes with hkey
  set pgv1 : Page := pgUpd pgv key (some B) with hpgv1
  set q1 : Quarry :=
    { heap := afterWrite q.heap oid (.pg pgv1), index := q.index } with hq1
  have hput : q.putKeyed (rawCid H B) B = .ok q1 := by
    unfold Quarry.putKeyed
    rw [mutate_ok_char q key (some B) oid pgv hroute hread hfb]
  have hroute1 : pidForKey q1.index.pages key = some oid := hroute
  have hread1 : readObj q1.heap oid = some (.pg pgv1) := by
    show alookup (afterWrite q.heap oid (.pg pgv1)).objs oid = some (.pg pgv1)
    rw [afterWrite_objs]
    exact alookup_ainsert_self q.heap.objs oid (.pg pgv1)
  have hkvs1 : pgv1.kvs = ainsert pgv.kvs key B := rfl
  have hget1 : q1.get (rawCid H B) = .ok (q1, some B) := by
    simp only [Quarry.get, ← hkey, hroute1, hread1]
    rw [hkvs1, alookup_ainsert_self]
  have hfb1 : q1.heap.failBatch = false := by
    show (afterWrite q.heap oid (.pg pgv1)).failBatch = false
    rw [afterWrite_failBatch]
    exact hfb
  set pgv2 : Page := pgUpd pgv1 key none with hpgv2
  set q2 : Quarry :=
    { heap := afterWrite q1.heap oid (.pg pgv2), index := q1.index } with hq2
  have hdel : q1.deleteBlock (rawCid H B) = .ok q2 := by
    unfold Quarry.deleteBlock
    rw [mutate_ok_char q1 key none oid pgv1 hroute1 hread1 hfb1]
  have hroute2 : pidForKey q2.index.pages key = some oid := hroute
  have hread2 : readObj q2.heap oid = some (.pg pgv2) := by
    show alookup (afterWrite q1.heap oid (.pg pgv2)).objs oid = some (.pg pgv2)
    rw [afterWrite_objs]
    exact alookup_ainsert_self q1.heap.objs oid (.pg pgv2)
  have hkvs2 : pgv2.kvs = aremove (ainsert pgv.kvs key B) key := rfl
  have hget2 : q2.get (rawCid H B) = .ok (q2, none) := by
    simp only [Quarry.get, ← hkey, hroute2, hread2]
    rw [hkvs2, alookup_aremove_self _ _ (nodup_ainsert pgv.kvs key B hnodup)]
  exact ⟨q1, q2, hput, hget1, hdel, hget2⟩

theorem quarry_roundtrip_witness :
    wfQ bootQuarry = true ∧
    ∃ q1 q2,
      bootQuarry.putKeyed (rawCid (fun l => l) [1, 2, 3]) [1, 2, 3] = .ok q1 ∧
      q1.get (rawCid (fun l => l) [1, 2, 3]) = .ok (q1, some [1, 2, 3]) ∧
      q1.deleteBlock (rawCid (fun l => l) [1, 2, 3]) = .ok q2 ∧
      q2.get (rawCid (fun l => l) [1, 2, 3]) = .ok (q2, none) :=
  ⟨by decide, quarry_roundtrip (fun l => l) bootQuarry [1, 2, 3] (by decide)⟩

theorem mutate_maintCount (q : Quarry) (key : List Nat)
    (v : Option (List Nat)) (q2 : Quarry) (ret : Option (List Nat))
    (h : q.mutate key v = .ok (q2, ret)) :
    q2.heap.maintCount =
      if q.heap.dead > q.heap.live then q.heap.maintCount + 1
      else q.heap.maintCount := by
  cases hp : pidForKey q.index.pages key with
  | none => simp [Quarry.mutate, hp] at h
  | some oid =>
    cases hr : readObj q.heap oid with
    | none => simp [Quarry.mutate, hp, hr] at h
    | some hv =>
      cases hv with
      | idx i => simp [Quarry.mutate, hp, hr] at h
      | pg pgv =>
        cases hfb : q.heap.failBatch with
        | true => simp [Quarry.mutate, hp, hr, writeBatch, hfb] at h
        | false =>
          have h2 := mutate_ok_char q key v oid pgv hp hr hfb
          rw [h2] at h
          have hq2 : q2 =
              { heap := afterWrite q.heap oid (.pg (pgUpd pgv key v)),
                index := q.index } := by
            cases h
            rfl
          rw [hq2]
          exact afterWrite_maintCount q.heap oid (.pg (pgUpd pgv key v))

/-- C7: after every successful write, put or delete, the store reads the
heap statistics and invokes maintenance exactly when dead objects exceed
live objects, synchronously before returning (seen as the maintenance
counter of the resulting handle); a read never invokes maintenance. -/
theorem compaction_trigger (q : Quarry) (k : Cid) (B : List Nat) :
    (∀ q2, q.putKeyed k B = .ok q2 →
       q2.heap.maintCount =
         if q.heap.dead > q.heap.live then q.heap.maintCount + 1
         else q.heap.maintCount) ∧
    (∀ q2, q.deleteBlock k = .ok q2 →
       q2.heap.maintCount =
         if q.heap.dead > q.heap.live then q.heap.maintCount + 1
         else q.heap.maintCount) ∧
    (∀ q2 v, q.get k = .ok (q2, v) →
       q2.heap.maintCount = q.heap.maintCount) := by
  refine ⟨?_, ?_, ?_⟩
  · intro q2 h
    unfold Quarry.putKeyed at h
    cases hm : q.mutate k.toBytes (some B) with
    | error e => rw [hm] at h; cases h
    | ok pr =>
      rw [hm] at h
      cases h
      exact mutate_maintCount q k.toBytes (some B) pr.1 pr.2 (by rw [hm])
  · intro q2 h
    unfold Quarry.deleteBlock at h
    cases hm : q.mutate k.toBytes none with
    | error e => rw [hm] at h; cases h
    | ok pr =>
      rw [hm] at h
      cases h
      exact mutate_maintCount q k.toBytes none pr.1 pr.2 (by rw [hm])
  · intro q2 v h
    cases hp : pidForKey q.index.pages k.toBytes with
    | none => simp [Quarry.get, hp] at h
    | some oid =>
      cases hr : readObj q.heap oid with
      | none => simp [Quarry.get, hp, hr] at h
      | some hv =>
        cases hv with
        | idx i => simp [Quarry.get, hp, hr] at h
        | pg pgv =>
          have : q2 = q := by
            simp [Quarry.get, hp, hr] at h
            exact h.1.symm
          rw [this]

theorem compaction_trigger_witness :
    (dirtyQuarry.putKeyed someCid [9] = .ok dirtyPutQ ∧
     dirtyPutQ.heap.maintCount = dirtyQuarry.heap.maintCount + 1) ∧
    (bootQuarry.deleteBlock someCid = .ok bootDelQ ∧
     bootDelQ.heap.maintCount = bootQuarry.heap.maintCount) :=
  ⟨⟨by decide, by
      have := (compaction_trigger dirtyQuarry someCid [9]).1 dirtyPutQ (by decide)
      simpa using this⟩,
   ⟨by decide, by
      have := (compaction_trigger bootQuarry someCid [9]).2.1 bootDelQ (by decide)
      simpa using this⟩⟩

/-- C5 counterexample: opening the empty heap bootstraps the single page at
heap object id 3, not 2: Index::default starts the counter at 2 but
allocate_page increments it before taking it as the object id, so object
id 2 is never written. -/
theorem open_bootstrap_counterexample :
    Quarry.openQ emptyHeap = .ok bootQuarry ∧
    bootQuarry.index.pages = [([], 3)] ∧
    bootQuarry.index.last_pid = 3 ∧
    readObj bootQuarry.heap 2 = none ∧
    readObj bootQuarry.heap 3 = some (.pg initPage) := by decide

/-- C5 (amended): when no Index object is persisted, open constructs the
fresh Index with counter 2, then bootstraps a single page whose heap object
id is 3 (the counter is incremented before use), low bound the empty key and
an empty map, persisting page and Index in one atomic batch; the resulting
store has exactly one page, which every key routes to. -/
theorem open_bootstrap (h : MHeap)
    (h1 : readObj h INDEX_OBJECT_ID = none)
    (h2 : h.failBatch = false) :
    Quarry.openQ h =
      .ok { heap :=
              { h with
                objs :=
                  ainsert (ainsert h.objs 3 (.pg initPage)) INDEX_OBJECT_ID
                    (.idx { pages := [([], 3)], last_pid := 3 }) },
            index := { pages := [([], 3)], last_pid := 3 } } ∧
    Index.default.last_pid = 2 ∧
    (∀ key : List Nat, pidForKey [([], 3)] key = some 3) := by
  refine ⟨?_, rfl, fun key => rfl⟩
  simp only [INDEX_OBJECT_ID] at h1
  simp [Quarry.openQ, h1, Index.default, Quarry.allocatePage, alookup, ainsert,
    writeBatch, h2, applyEntry, initPage, INDEX_OBJECT_ID]

theorem open_bootstrap_witness :
    readObj emptyHeap INDEX_OBJECT_ID = none ∧
    emptyHeap.failBatch = false ∧
    (Quarry.openQ emptyHeap =
      .ok { heap :=
              { emptyHeap with
                objs :=
                  ainsert (ainsert emptyHeap.objs 3 (.pg initPage))
                    INDEX_OBJECT_ID
                    (.idx { pages := [([], 3)], last_pid := 3 }) },
            index := { pages := [([], 3)], last_pid := 3 } } ∧
     Index.default.last_pid = 2 ∧
     (∀ key : List Nat, pidForKey [([], 3)] key = some 3)) :=
  ⟨by decide, by decide, open_bootstrap emptyHeap (by decide) (by decide)⟩

/-- C6 counterexample: when the Index routes a key to a heap object id with
no stored object, get does not return ok-none: it fails with the modelled
unwrap panic. -/
theorem get_missing_page_counterexample :
    badQuarry.get someCid = .error .panic ∧
    badQuarry.get someCid ≠ .ok (badQuarry, none) := by decide

/-- C6 (amended): get returns ok-none only when the key is absent from the
owning page map (and ok-some when present); when the routed heap object is
missing, get fails with the unwrap panic instead of returning none, so
callers cannot treat the missing-page integrity condition as an ordinary
not-present result. -/
theorem get_missing_page (q : Quarry) (k : Cid) (oid : ObjectId)
    (hroute : pidForKey q.index.pages k.toBytes = some oid) :
    (readObj q.heap oid = none → q.get k = .error .panic) ∧
    (∀ pgv, readObj q.heap oid = some (.pg pgv) →
       q.get k = .ok (q, alookup pgv.kvs k.toBytes)) := by
  constructor
  · intro hr
    simp [Quarry.get, hroute, hr]
  · intro pgv hr
    simp [Quarry.get, hroute, hr]

theorem get_missing_page_witness :
    pidForKey badQuarry.index.pages someCid.toBytes = some 3 ∧
    ((readObj badQuarry.heap 3 = none → badQuarry.get someCid = .error .panic) ∧
     (∀ pgv, readObj badQuarry.heap 3 = some (.pg pgv) →
        badQuarry.get someCid = .ok (badQuarry, alookup pgv.kvs someCid.toBytes))) :=
  ⟨by decide, get_missing_page badQuarry someCid 3 (by decide)⟩

/-- C8: page allocation commits the new page and the refreshed Index in the
same atomic heap batch: on success both are readable afterwards, the Index
entry pointing at the new object id; when the batch fails the call returns
the propagated error and, the batch being atomic, no entry was applied, so
neither the page nor the refreshed Index is persisted. -/
theorem allocate_atomicity (q : Quarry) (page : Page)
    (hprev : alookup q.index.pages page.lo = none)
    (hpid : 0 < q.index.last_pid) :
    (q.heap.failBatch = false →
       ∃ q2, q.allocatePage page = .ok q2 ∧
         q2.index.pages = ainsert q.index.pages page.lo (q.index.last_pid + 1) ∧
         q2.index.last_pid = q.index.last_pid + 1 ∧
         readObj q2.heap (q.index.last_pid + 1) = some (.pg page) ∧
         readObj q2.heap INDEX_OBJECT_ID = some (.idx q2.index)) ∧
    (q.heap.failBatch = true → q.allocatePage page = .error .io) := by
  constructor
  · intro hfb
    have halloc : q.allocatePage page =
        .ok { heap :=
                { q.heap with
                  objs :=
                    ainsert (ainsert q.heap.objs (q.index.last_pid + 1) (.pg page))
                      INDEX_OBJECT_ID
                      (.idx { pages := ainsert q.index.pages page.lo
                                (q.index.last_pid + 1),
                              last_pid := q.index.last_pid + 1 }) },
              index := { pages := ainsert q.index.pages page.lo
                           (q.index.last_pid + 1),
                         last_pid := q.index.last_pid + 1 } } := by
      simp [Quarry.allocatePage, hprev, writeBatch, hfb, applyEntry]
    refine ⟨_, halloc, rfl, rfl, ?_, ?_⟩
    · show alookup (ainsert (ainsert q.heap.objs (q.index.last_pid + 1) (.pg page))
          INDEX_OBJECT_ID _) (q.index.last_pid + 1) = some (.pg page)
      rw [alookup_ainsert_ne _ INDEX_OBJECT_ID (q.index.last_pid + 1) _
        (by show (1 : Nat) ≠ q.index.last_pid + 1; omega)]
      exact alookup_ainsert_self _ _ _
    · exact alookup_ainsert_self _ _ _
  · intro hfb
    simp [Quarry.allocatePage, hprev, writeBatch, hfb]

theorem allocate_atomicity_witness :
    alookup bootQuarry.index.pages ([0] : List Nat) = none ∧
    0 < bootQuarry.index.last_pid ∧
    ((bootQuarry.heap.failBatch = false →
       ∃ q2, bootQuarry.allocatePage { hi := none, lo := [0], kvs := [] } = .ok q2 ∧
         q2.index.pages =
           ainsert bootQuarry.index.pages [0] (bootQuarry.index.last_pid + 1) ∧
         q2.index.last_pid = bootQuarry.index.last_pid + 1 ∧
         readObj q2.heap (bootQuarry.index.last_pid + 1) =
           some (.pg { hi := none, lo := [0], kvs := [] }) ∧
         readObj q2.heap INDEX_OBJECT_ID = some (.idx q2.index)) ∧
     (bootQuarry.heap.failBatch = true →
       bootQuarry.allocatePage { hi := none, lo := [0], kvs := [] } = .error .io)) :=
  ⟨by decide, by decide,
   allocate_atomicity bootQuarry { hi := none, lo := [0], kvs := [] }
     (by decide) (by decide)⟩

theorem chunker_completeness_witness :
    ((0 : Nat) < 2 ∧ (5 : Nat) = ([1, 2, 3, 4, 5] : List Nat).length) ∧
    ((runList ((ChunkReader.withChunkSize 2 [1, 2, 3, 4, 5]).setContentSize 5)).join =
       [1, 2, 3, 4, 5] ∧
     (runList ((ChunkReader.withChunkSize 2 [1, 2, 3, 4, 5]).setContentSize 5)).length =
       (5 + 2 - 1) / 2 ∧
     ((5 : Nat) = 0 →
       runList ((ChunkReader.withChunkSize 2 [1, 2, 3, 4, 5]).setContentSize 5) = []) ∧
     (∀ ch ∈ (runList ((ChunkReader.withChunkSize 2
          [1, 2, 3, 4, 5]).setContentSize 5)).dropLast, ch.length = 2) ∧
     (∀ ch,
        (runList ((ChunkReader.withChunkSize 2
           [1, 2, 3, 4, 5]).setContentSize 5)).getLast? = some ch →
        ch.length = if (5 : Nat) % 2 = 0 then 2 else (5 : Nat) % 2)) :=
  ⟨⟨by decide, by decide⟩,
   chunker_completeness [1, 2, 3, 4, 5] 2 5 (by decide) (by decide)⟩

theorem trickleLoop_recStore (H : List Nat → List Nat)
    (chunks : List (List Nat)) :
    ∀ (s : List (Cid × List Nat)) (links : List Link),
    trickleLoop H recStore chunks s links =
      .ok (s ++ chunks.map (fun d => (rawCid H d, d)),
           links ++ chunks.map (fun d => Link.fromCid (rawCid H d))) := by
  induction chunks with
  | nil => intro s links; simp [trickleLoop]
  | cons d rest ih =>
    intro s links
    have hput : recStore.putKeyed s (Cid.newV1 0x55 (sha256Digest H d)) d =
        .ok (s ++ [(Cid.newV1 0x55 (sha256Digest H d), d)]) := rfl
    simp only [trickleLoop, hput]
    rw [ih]
    simp [rawCid, List.append_assoc]

/-- C3: trickle over P chunks against the recording store stores each chunk
in order keyed by its raw-codec SHA-256 CID, appends a bare link (no name,
no size) per chunk to the root, stores the encoded root keyed by the
DAG-descriptor-codec CID of the encoded bytes, and returns that root CID
with leaf count P and the encoded length; the root carries exactly the P
links of the chunk CIDs in order; for P = 0 the build succeeds with a root
of 0 links. -/
theorem trickle_dag_shape (H : List Nat → List Nat) (E : Node → List Nat)
    (chunks : List (List Nat)) :
    trickle H E recStore chunks [] =
      .ok (chunks.map (fun d => (rawCid H d, d)) ++
             [(rootCidOf H E chunks, E (rootNode H chunks))],
           { root := rootCidOf H E chunks,
             leaves := chunks.length,
             root_size := (E (rootNode H chunks)).length }) ∧
    (rootNode H chunks).links = chunks.map (fun d => Link.fromCid (rawCid H d)) ∧
    (rootNode H chunks).links.length = chunks.length := by
  refine ⟨?_, rfl, by simp [rootNode]⟩
  have hloop := trickleLoop_recStore H chunks [] []
  simp only [List.nil_append] at hloop
  simp only [trickle]
  rw [hloop]
  simp [recStore, rootCidOf, rootNode]

theorem trickleLoop_ok {σ : Type} (S : Storer σ)
    (hok : ∀ s k b, ∃ s2, S.putKeyed s k b = .ok s2)
    (H : List Nat → List Nat) (chunks : List (List Nat)) :
    ∀ (s : σ) (links : List Link),
    ∃ s2, trickleLoop H S chunks s links =
      .ok (s2, links ++ chunks.map (fun d => Link.fromCid (rawCid H d))) := by
  induction chunks with
  | nil => intro s links; exact ⟨s, by simp [trickleLoop]⟩
  | cons d rest ih =>
    intro s links
    obtain ⟨s2, hs2⟩ := hok s (Cid.newV1 0x55 (sha256Digest H d)) d
    obtain ⟨s3, hs3⟩ :=
      ih s2 (links ++ [Link.fromCid (Cid.newV1 0x55 (sha256Digest H d))])
    refine ⟨s3, ?_⟩
    simp [trickleLoop, hs2, hs3, rawCid, List.append_assoc]

theorem trickle_ok {σ : Type} (S : Storer σ)
    (hok : ∀ s k b, ∃ s2, S.putKeyed s k b = .ok s2)
    (H : List Nat → List Nat) (E : Node → List Nat)
    (chunks : List (List Nat)) (s : σ) :
    ∃ s3, trickle H E S chunks s =
      .ok (s3,
        { root := rootCidOf H E chunks,
          leaves := chunks.length,
          root_size := (E (rootNode H chunks)).length }) := by
  obtain ⟨s2, h2⟩ := trickleLoop_ok S hok H chunks s []
  simp only [List.nil_append] at h2
  obtain ⟨s3, h3⟩ := hok s2 (rootCidOf H E chunks) (E (rootNode H chunks))
  refine ⟨s3, ?_⟩
  simp only [rootCidOf, rootNode] at h3
  simp [trickle, h2, h3, rootCidOf, rootNode]

/-- C4: hashing identical byte strings yields identical CIDs, and trickle
over identical chunk sequences against two stores whose put_keyed always
succeeds yields identical root CIDs and identical leaf counts. -/
theorem trickle_determinism {σ1 σ2 : Type} (S1 : Storer σ1) (S2 : Storer σ2)
    (H : List Nat → List Nat) (E : Node → List Nat)
    (chunks : List (List Nat)) (s1 : σ1) (s2 : σ2)
    (h1 : ∀ s k b, ∃ s0, S1.putKeyed s k b = .ok s0)
    (h2 : ∀ s k b, ∃ s0, S2.putKeyed s k b = .ok s0) :
    (∀ b1 b2 : List Nat, b1 = b2 → rawCid H b1 = rawCid H b2) ∧
    ∃ r1 i1 r2 i2,
      trickle H E S1 chunks s1 = .ok (r1, i1) ∧
      trickle H E S2 chunks s2 = .ok (r2, i2) ∧
      i1.root = i2.root ∧ i1.leaves = i2.leaves := by
  refine ⟨fun b1 b2 hb => by rw [hb], ?_⟩
  obtain ⟨r1, hr1⟩ := trickle_ok S1 h1 H E chunks s1
  obtain ⟨r2, hr2⟩ := trickle_ok S2 h2 H E chunks s2
  exact ⟨r1, _, r2, _, hr1, hr2, rfl, rfl⟩

theorem trickle_determinism_witness :
    (∀ b1 b2 : List Nat, b1 = b2 →
       rawCid (fun l => l) b1 = rawCid (fun l => l) b2) ∧
    ∃ r1 i1 r2 i2,
      trickle (fun l => l) (fun n => [n.links.length]) recStore [[1], [2]] [] =
        .ok (r1, i1) ∧
      trickle (fun l => l) (fun n => [n.links.length]) recStore [[1], [2]] [] =
        .ok (r2, i2) ∧
      i1.root = i2.root ∧ i1.leaves = i2.leaves :=
  trickle_determinism recStore recStore (fun l => l)
    (fun n => [n.links.length]) [[1], [2]] [] []
    (fun s k b => ⟨s ++ [(k, b)], rfl⟩) (fun s k b => ⟨s ++ [(k, b)], rfl⟩)

end QuarrySpec
